import Mathlib

/-!
Verification development for the amaranthine (synchrotron) cache proxy.

The Rust sources are shallowly embedded: `BytesMut` buffers become `List Nat`
byte lists, `Instant` timestamps become `Nat` milliseconds passed explicitly,
fallible paths return `Except`/`Option`, and panics are modelled as `none`.
The `slab::Slab` allocator is modelled as an association list together with a
fresh-key counter: every insertion returns a key not currently present, which
is the only property of the allocator the queue logic relies on (the real
crate may also reuse freed keys).
-/

namespace Amaranthine

/-- A `bytes::BytesMut` buffer, as a list of bytes. -/
abbrev Buf := List Nat

/-- Message state of queued messages (src/backend/message_queue.rs,
`enum MessageState`). -/
inductive MessageState where
  | Standalone
  | Inline
  | Fragmented (buf : Buf) (index : Nat) (count : Nat)
  | StreamingFragmented (header : Option Buf)
deriving DecidableEq

/-- Message response types for a queued message (src/backend/message_queue.rs,
`enum MessageResponse`). -/
inductive MessageResponse (M : Type) where
  | Failed
  | Complete (msg : M)
deriving DecidableEq

/-- The `Processor` trait operations used by the message queue
(src/backend/processor/mod.rs), together with `into_buf` from the `Message`
trait (module `common` is not part of the provided sources; `into_buf`
re-serialises a message into its byte buffer, as the spec's "re-serialised
bytes").  `ProcessorError` is opaque here, so errors are `Except Unit`. -/
structure Processor (M : Type) where
  fragment_messages : List M → Except Unit (List (MessageState × M))
  defragment_messages : List (MessageState × M) → Except Unit M
  get_error_message_str : String → M
  into_buf : M → Buf

/-- First-match association-list lookup (the key-indexed access of
`slab::Slab`). -/
def alookup {α : Type} : List (Nat × α) → Nat → Option α
  | [], _ => none
  | e :: rest, k => if e.1 = k then some e.2 else alookup rest k

/-- Model of `slab::Slab`: entries keyed by slot id, plus a counter supplying
fresh keys. -/
structure Slab (α : Type) where
  nextId : Nat
  entries : List (Nat × α)
deriving DecidableEq

/-- `Slab::get`. -/
def slabGet {α : Type} (s : Slab α) (k : Nat) : Option α := alookup s.entries k

/-- `Slab::contains` (the check behind `get_mut(..).ok_or(..)`). -/
def slabContains {α : Type} (s : Slab α) (k : Nat) : Bool := (slabGet s k).isSome

/-- `Slab::insert`: returns the assigned key and the grown slab. -/
def slabInsert {α : Type} (s : Slab α) (v : α) : Nat × Slab α :=
  (s.nextId, ⟨s.nextId + 1, s.entries ++ [(s.nextId, v)]⟩)

/-- `Slab::remove`, eraser part: the key's entry disappears from the slab. -/
def slabErase {α : Type} (s : Slab α) (k : Nat) : Slab α :=
  ⟨s.nextId, s.entries.filter (fun e => decide (e.1 ≠ k))⟩

/-- In-place overwrite of a present key's value (`get_mut` + `replace`). -/
def slabSet {α : Type} (s : Slab α) (k : Nat) (v : α) : Slab α :=
  ⟨s.nextId, s.entries.map (fun e => if e.1 = k then (k, v) else e)⟩

/-- Erasing a list of keys in order. -/
def removeIds {α : Type} (ids : List Nat) (s : Slab α) : Slab α :=
  ids.foldl slabErase s

/-- The per-client message queue (src/backend/message_queue.rs,
`struct MessageQueue`).  `slot_order` is the `VecDeque` (head at the list
head); `slots` holds `Option M` payloads: `none` is an awaiting slot, `some`
a filled one. -/
structure MessageQueue (M : Type) where
  input_closed : Bool
  output_closed : Bool
  slot_order : List (Nat × MessageState)
  slots : Slab (Option M)
deriving DecidableEq

/-- `MessageQueue::new`. -/
def MessageQueue.new (M : Type) : MessageQueue M :=
  { input_closed := false
    output_closed := false
    slot_order := []
    slots := ⟨0, []⟩ }

/-- `MessageQueue::is_slot_ready`: the queue position `i` exists and its slot
is filled. -/
def is_slot_ready {M : Type} (q : MessageQueue M) (i : Nat) : Bool :=
  match q.slot_order.get? i with
  | none => false
  | some (slot_id, _) =>
    match alookup q.slots.entries slot_id with
    | some (some _) => true
    | _ => false

/-- Outcome of `get_next_response`:
`Ok(Async::NotReady)`, `Ok(Async::Ready(Some(buf)))` or `Err(..)`. -/
inductive PollResp where
  | notReady
  | ready (buf : Buf)
  | error
deriving DecidableEq

/-- The fragment-extraction loop of `get_next_response` (lines 189-194):
pop `n` entries off the front, removing each from the slab and collecting
`(state, message)` pairs.  `none` models the `unwrap` panics on a vacant or
unfilled slot, which the caller has already ruled out. -/
def takeFragments {M : Type} : Nat → MessageQueue M → Option (List (MessageState × M) × MessageQueue M)
  | 0, q => some ([], q)
  | n + 1, q =>
    match q.slot_order with
    | [] => none
    | (slot_id, st) :: rest =>
      match alookup q.slots.entries slot_id with
      | some (some m) =>
        match takeFragments n { q with slot_order := rest, slots := slabErase q.slots slot_id } with
        | some (frs, q') => some ((st, m) :: frs, q')
        | none => none
      | _ => none

/-- `MessageQueue::get_next_response`.  Returns the poll outcome together with
the updated queue; note that on a defragmentation error the fragments have
already been popped when the `?` propagates, so the mutated queue is kept. -/
def getNextResponse {M : Type} (p : Processor M) (q : MessageQueue M) : PollResp × MessageQueue M :=
  if is_slot_ready q 0 = false then (.notReady, q)
  else
    let has_immediate :=
      match q.slot_order.head? with
      | none => false
      | some (slot_id, state) =>
        match alookup q.slots.entries slot_id with
        | some _ =>
          match state with
          | .Standalone => true
          | .Inline => true
          | .StreamingFragmented _ => true
          | .Fragmented _ _ _ => false
        | none => false
    if has_immediate then
      match q.slot_order with
      | [] => (.notReady, q)  -- unreachable: guarded by `is_slot_ready q 0`
      | (slot_id, state) :: rest =>
        match alookup q.slots.entries slot_id with
        | some (some m) =>
          let q' : MessageQueue M := { q with slot_order := rest, slots := slabErase q.slots slot_id }
          let buf :=
            match state with
            | .StreamingFragmented (some header_buf) => header_buf ++ p.into_buf m
            | _ => p.into_buf m
          (.ready buf, q')
        | _ => (.notReady, q)  -- unreachable: guarded by `is_slot_ready q 0`
    else
      let fragment_count :=
        match q.slot_order.head? with
        | some (_, .Fragmented _ _ count) => count
        | _ => 0  -- unreachable in the source
      if (List.range fragment_count).all (fun index => is_slot_ready q index) then
        match takeFragments fragment_count q with
        | some (fragments, q') =>
          match p.defragment_messages fragments with
          | .ok m => (.ready (p.into_buf m), q')
          | .error _ => (.error, q')
        | none => (.notReady, q)  -- unreachable: every fragment was checked ready
      else (.notReady, q)

/-- The enqueue loop body of `MessageQueue::enqueue` (lines 203-213). -/
def enqueueLoop {M : Type} : List (MessageState × M) → MessageQueue M → List (Nat × M) → List (Nat × M) × MessageQueue M
  | [], q, qmsgs => (qmsgs, q)
  | (msg_state, msg) :: rest, q, qmsgs =>
    if msg_state = MessageState.Inline then
      let ins := slabInsert q.slots (some msg)
      enqueueLoop rest { q with slots := ins.2, slot_order := q.slot_order ++ [(ins.1, msg_state)] } qmsgs
    else
      let ins := slabInsert q.slots none
      enqueueLoop rest { q with slots := ins.2, slot_order := q.slot_order ++ [(ins.1, msg_state)] }
        (qmsgs ++ [(ins.1, msg)])

/-- `MessageQueue::enqueue`: fragment the input, then allocate a slot per
piece; `Inline` pieces are installed immediately, the rest form the returned
dispatch batch. -/
def enqueue {M : Type} (p : Processor M) (q : MessageQueue M) (msgs : List M) :
    Except Unit (List (Nat × M) × MessageQueue M) :=
  match p.fragment_messages msgs with
  | .error e => .error e
  | .ok fmsgs => .ok (enqueueLoop fmsgs q [])

/-- `MessageQueue::fulfill`: install each response into its slot, substituting
the processor's error message for `Failed`; stop with `Err` at the first slot
id absent from the slab. -/
def fulfill {M : Type} (p : Processor M) : List (Nat × MessageResponse M) → MessageQueue M → Except Unit Unit × MessageQueue M
  | [], q => (.ok (), q)
  | (slot, response) :: rest, q =>
    match alookup q.slots.entries slot with
    | none => (.error (), q)
    | some _ =>
      let msg :=
        match response with
        | .Complete m => m
        | .Failed => p.get_error_message_str "failed to receive response"
      fulfill p rest { q with slots := slabSet q.slots slot (some msg) }

/-- The drain loop of `MessageQueue::get_sendable_bufs`.  The Rust loop has no
fuel: it terminates because every emission pops at least one entry off
`slot_order` (fragment counts are positive), so `slot_order.length + 1` calls
always reach a non-`ready` poll.  A breaking call's queue mutations are kept,
exactly as in the source. -/
def drainBufs {M : Type} (p : Processor M) : Nat → MessageQueue M → List Buf × MessageQueue M
  | 0, q => ([], q)
  | fuel + 1, q =>
    match getNextResponse p q with
    | (.ready buf, q') =>
      let rec_result := drainBufs p fuel q'
      (buf :: rec_result.1, rec_result.2)
    | (_, q') => ([], q')

/-- `MessageQueue::get_sendable_bufs`. -/
def get_sendable_bufs {M : Type} (p : Processor M) (q : MessageQueue M) : Option (List Buf × MessageQueue M) :=
  if is_slot_ready q 0 = false then none
  else some (drainBufs p (q.slot_order.length + 1) q)

/-- Per-backend health state (src/backend/health.rs, `struct BackendHealth`).
`Instant` becomes a `Nat` timestamp; the internal `tokio` `Delay` timer only
feeds `poll_health` and carries no state the claims touch, so it is omitted. -/
structure BackendHealth where
  cooloff_enabled : Bool
  cooloff_period_ms : Nat
  error_limit : Nat
  error_count : Nat
  in_cooloff : Bool
  epoch : Nat
  cooloff_done_at : Nat
deriving DecidableEq

/-- `BackendHealth::new`. -/
def BackendHealth.new (cooloff_enabled : Bool) (cooloff_period_ms : Nat) (error_limit : Nat)
    (now : Nat) : BackendHealth :=
  { cooloff_enabled := cooloff_enabled
    cooloff_period_ms := cooloff_period_ms
    error_limit := error_limit
    error_count := 0
    in_cooloff := false
    epoch := 0
    cooloff_done_at := now }

/-- `BackendHealth::is_healthy`, with `Instant::now()` passed in as `now`. -/
def BackendHealth.is_healthy (now : Nat) (h : BackendHealth) : Bool × BackendHealth :=
  if !h.cooloff_enabled || !h.in_cooloff then (true, h)
  else if h.cooloff_done_at < now then
    (true, { h with error_count := 0, in_cooloff := false, epoch := h.epoch + 1 })
  else (false, h)

/-- `BackendHealth::increment_error`, with `Instant::now()` passed in as
`now`.  The `delay.reset(deadline)` call only re-arms the timer behind
`poll_health` and has no further observable state. -/
def BackendHealth.increment_error (now : Nat) (h : BackendHealth) : BackendHealth :=
  if !h.cooloff_enabled then h
  else
    let h1 : BackendHealth := { h with error_count := h.error_count + 1 }
    if h1.error_limit ≤ h1.error_count && !h1.in_cooloff then
      { h1 with
        in_cooloff := true
        epoch := h1.epoch + 1
        cooloff_done_at := now + h1.cooloff_period_ms }
    else h1

/-- Modelled from the spec: `RedisMessage` lives in `protocol/redis.rs`, which
is not among the provided sources.  The spec's data model gives the kinds
(bulk/array, simple, error, integer, nil); `src/backend/redis.rs` shows the
shapes actually consulted: `Bulk(buf, args)` for arrays and
`Data(buf, offset)` for bulk strings whose payload starts at `offset` inside
the framed buffer.  `from_error` wraps an I/O error (here its description
string) into a protocol error reply. -/
inductive RedisMessage where
  | Null
  | Status (buf : Buf) (offset : Nat)
  | ErrorReply (description : String)
  | IntegerReply (value : Int)
  | Data (buf : Buf) (offset : Nat)
  | Bulk (buf : Buf) (args : List RedisMessage)

/-- Modelled from the spec: `RedisMessage::from_error` produces a
protocol-valid error reply carrying the error's description. -/
def RedisMessage.from_error (err : String) : RedisMessage :=
  RedisMessage.ErrorReply err

/-- `get_message_key` (src/backend/redis.rs lines 116-134).  The `panic!`
arms and the `usize` underflow of `buf2.len() - 2` on a too-short payload are
modelled as `none`. -/
def get_message_key (msg : RedisMessage) : Option Buf :=
  match msg with
  | .Bulk _ args =>
    let arg_pos := if args.length < 2 then 0 else 1
    match args.get? arg_pos with
    | some (.Data buf offset) =>
      let buf2 := buf.drop offset
      if buf2.length < 2 then none  -- usize underflow panic in the source
      else some (buf2.take (buf2.length - 2))
    | _ => none  -- panic: "command message does not have expected structure"
  | _ => none    -- panic: "command message should be multi-bulk!"

/-- `HashMap::entry(..).or_insert(Vec::new()).push(entry)` over an
insertion-ordered association list: append to an existing group, or add a new
group at the end. -/
def insertGrouped (groups : List (Nat × List (Nat × RedisMessage))) (backend_idx : Nat)
    (entry : Nat × RedisMessage) : List (Nat × List (Nat × RedisMessage)) :=
  match groups with
  | [] => [(backend_idx, [entry])]
  | (b, es) :: rest =>
    if b = backend_idx then (b, es ++ [entry]) :: rest
    else (b, es) :: insertGrouped rest backend_idx entry

/-- The grouping loop of `generate_batched_redis_writes`
(src/backend/redis.rs lines 69-81): number the messages `0, 1, ...`, extract
each key, and group by `pool.get_backend_index` (abstracted as `idx`).  The
source's `std::collections::HashMap` is modelled as an insertion-ordered
association list; the real map's iteration order is unspecified.  `none`
models the panic inside `get_message_key`. -/
def assignLoop (idx : Buf → Nat) : List RedisMessage → Nat → List (Nat × List (Nat × RedisMessage)) →
    Option (List (Nat × List (Nat × RedisMessage)))
  | [], _, acc => some acc
  | msg :: rest, i, acc =>
    match get_message_key msg with
    | none => none
    | some msg_key => assignLoop idx rest (i + 1) (insertGrouped acc (idx msg_key) (i, msg))

/-- The backend indexes in the order the submission loop of
`generate_batched_redis_writes` (lines 86-102) visits them: the iteration
order of the grouping map. -/
def generate_submission_order (idx : Buf → Nat) (messages : List RedisMessage) : Option (List Nat) :=
  (assignLoop idx messages 0 []).map (fun groups => groups.map Prod.fst)

/-- `to_vectored_error_response` (src/backend/redis.rs lines 107-114). -/
def to_vectored_error_response (err : String) (indexes : List Nat) : List (Nat × RedisMessage) :=
  let msg := RedisMessage.from_error err
  indexes.foldl (fun msgs i => msgs ++ [(i, msg)]) []

/-! ### Concrete instances and auxiliary definitions used by the claims -/

/-- Concrete health state used for the C5 counterexample and witness: in
cool-off, with `cooloff_done_at = 5`. -/
def hEx5 : BackendHealth :=
  { cooloff_enabled := true
    cooloff_period_ms := 10
    error_limit := 1
    error_count := 1
    in_cooloff := true
    epoch := 3
    cooloff_done_at := 5 }

/-- Concrete health state used for the C6 witness: enabled, one error away
from the limit, not yet cooling. -/
def hEx6 : BackendHealth :=
  { cooloff_enabled := true
    cooloff_period_ms := 10
    error_limit := 1
    error_count := 0
    in_cooloff := false
    epoch := 0
    cooloff_done_at := 0 }

/-- The routing key exactly as the claim words it: for an array command, the
second element's raw bytes (the payload past `offset`) with the trailing
two framing bytes stripped; no key otherwise.  This definition follows the
claim, not the source, and is compared against `get_message_key`. -/
def claimed_message_key (msg : RedisMessage) : Option Buf :=
  match msg with
  | .Bulk _ args =>
    match args.get? 1 with
    | some (.Data buf offset) =>
      let buf2 := buf.drop offset
      if buf2.length < 2 then none
      else some (buf2.take (buf2.length - 2))
    | _ => none
  | _ => none

/-- The routing key as the amended claim words it: the element consulted is
the second when the array has at least two elements and the first otherwise;
its raw bytes past `offset` with the trailing two framing bytes stripped form
the key; non-array messages (and malformed elements) yield no key — in the
source those paths panic. -/
def amended_message_key (msg : RedisMessage) : Option Buf :=
  match msg with
  | .Bulk _ args =>
    let consulted := if 2 ≤ args.length then args.get? 1 else args.get? 0
    match consulted with
    | some (.Data buf offset) =>
      let buf2 := buf.drop offset
      if buf2.length < 2 then none
      else some (buf2.take (buf2.length - 2))
    | _ => none
  | _ => none

/-- A one-element array command (`PING`), as `Bulk` with a single `Data`
argument whose buffer is `"ping\r\n"` with payload offset 0. -/
def msgPing : RedisMessage :=
  RedisMessage.Bulk [] [RedisMessage.Data [112, 105, 110, 103, 13, 10] 0]

/-- The keys of a message list, propagating the key-extraction panic. -/
def messageKeys : List RedisMessage → Option (List Buf)
  | [] => some []
  | m :: rest =>
    match get_message_key m with
    | none => none
    | some k => (messageKeys rest).map (fun ks => k :: ks)

/-- First occurrences of a list's elements, skipping anything already
`seen`. -/
def firstOccurrences (seen : List Nat) : List Nat → List Nat
  | [] => []
  | x :: xs => if x ∈ seen then firstOccurrences seen xs else x :: firstOccurrences (x :: seen) xs

/-- A command whose key is the byte string `"a"`. -/
def msgKeyA : RedisMessage :=
  RedisMessage.Bulk [] [RedisMessage.Data [97, 13, 10] 0]

/-- A command whose key is the byte string `"b"`. -/
def msgKeyB : RedisMessage :=
  RedisMessage.Bulk [] [RedisMessage.Data [98, 13, 10] 0]

/-- A shard map sending key `"a"` to backend 1 and everything else to
backend 0. -/
def idxEx : Buf → Nat := fun k => if k = [97] then 1 else 0

/-- The last response a fulfilment batch assigns to a given slot id, if
any. -/
def lastAssign {M : Type} : List (Nat × MessageResponse M) → Nat → Option (MessageResponse M)
  | [], _ => none
  | (k, r) :: rest, sid =>
    match lastAssign rest sid with
    | some r' => some r'
    | none => if k = sid then some r else none

/-- The message `fulfill` installs for a response: a `Complete` payload
unchanged, the processor's protocol error message for `Failed`. -/
def respMsg {M : Type} (p : Processor M) : MessageResponse M → M
  | .Complete m => m
  | .Failed => p.get_error_message_str "failed to receive response"

/-- A concrete processor over `Nat` messages, used by the queue witnesses:
fragmentation tags every message `Standalone`, defragmentation sums the
fragments, the protocol error message is `99`, and a message serialises to
the singleton byte list. -/
def pEx : Processor Nat :=
  { fragment_messages := fun ms => Except.ok (ms.map (fun m => (MessageState.Standalone, m)))
    defragment_messages := fun frs => Except.ok (frs.foldl (fun a e => a + e.2) 0)
    get_error_message_str := fun _ => 99
    into_buf := fun m => [m] }

/-- A queue with two live, unfilled standalone slots 0 and 1. -/
def qEx4 : MessageQueue Nat :=
  { input_closed := false
    output_closed := false
    slot_order := [(0, MessageState.Standalone), (1, MessageState.Standalone)]
    slots := ⟨2, [(0, none), (1, none)]⟩ }

/-- Pair each list element with a counter starting at `i`. -/
def enumFrom {α : Type} (i : Nat) : List α → List (Nat × α)
  | [] => []
  | x :: xs => (i, x) :: enumFrom (i + 1) xs

/-- A queue whose head group is `Fragmented` with count 2, both fragments
filled. -/
def qEx2 : MessageQueue Nat :=
  { input_closed := false
    output_closed := false
    slot_order := [(0, MessageState.Fragmented [] 0 2), (1, MessageState.Fragmented [] 1 2)]
    slots := ⟨2, [(0, some 10), (1, some 20)]⟩ }

/-- Every `Fragmented` entry of the ordered queue carries a positive fragment
count — the well-formedness the enqueue path guarantees (a fragment group has
members). -/
def fragPosB {M : Type} (q : MessageQueue M) : Bool :=
  q.slot_order.all (fun e =>
    match e.2 with
    | MessageState.Fragmented _ _ count => decide (0 < count)
    | _ => true)

/-- A queue with one filled standalone slot. -/
def qEx3 : MessageQueue Nat :=
  { input_closed := false
    output_closed := false
    slot_order := [(0, MessageState.Standalone)]
    slots := ⟨1, [(0, some 7)]⟩ }

/-- The queue left after draining `qEx3`. -/
def qEx3' : MessageQueue Nat :=
  { input_closed := false
    output_closed := false
    slot_order := []
    slots := ⟨1, []⟩ }

/-! ### Auxiliary list lemmas -/

theorem alookup_append {α : Type} (l1 l2 : List (Nat × α)) (k : Nat) :
    alookup (l1 ++ l2) k =
      match alookup l1 k with
      | some v => some v
      | none => alookup l2 k := by
  induction l1 with
  | nil => simp [alookup]
  | cons e rest ih =>
    by_cases hk : e.1 = k
    · simp [alookup, hk]
    · simp [alookup, hk, ih]

theorem alookup_eq_none {α : Type} (l : List (Nat × α)) (k : Nat)
    (h : ∀ e ∈ l, e.1 ≠ k) : alookup l k = none := by
  induction l with
  | nil => rfl
  | cons e rest ih =>
    have he : e.1 ≠ k := h e (List.mem_cons_self e rest)
    simp only [alookup, if_neg he]
    exact ih (fun e' he' => h e' (List.mem_cons_of_mem e he'))

/-! ### C5 and C6: the health state machine -/

/-- C5 (amended): `is_healthy` returns `true` iff cool-off is not enabled, or
the backend is not in cool-off, or the current time is strictly past
`cooloff_done_at`; in that last case it resets `error_count` to 0, clears the
`in_cooloff` flag and bumps `epoch`, and this reset happens exactly once per
cool-off period: while `in_cooloff` holds and `now ≤ cooloff_done_at` the call
stably returns `false` and leaves the state unchanged, and once the flag is
clear no call modifies the state again. -/
theorem health_is_healthy_spec (now : Nat) (h : BackendHealth) :
    ((h.is_healthy now).1 = true ↔
      (h.cooloff_enabled = false ∨ h.in_cooloff = false ∨ h.cooloff_done_at < now))
    ∧ (h.cooloff_enabled = true → h.in_cooloff = true → h.cooloff_done_at < now →
        (h.is_healthy now).2 =
          { h with error_count := 0, in_cooloff := false, epoch := h.epoch + 1 })
    ∧ (h.cooloff_enabled = true → h.in_cooloff = true → now ≤ h.cooloff_done_at →
        h.is_healthy now = (false, h))
    ∧ (h.in_cooloff = false → (h.is_healthy now).2 = h) := by
  cases he : h.cooloff_enabled <;> cases hi : h.in_cooloff <;>
    by_cases hd : h.cooloff_done_at < now <;>
      simp [BackendHealth.is_healthy, he, hi, hd]

/-- C5, counterexample to the claim as stated: at `now = cooloff_done_at` the
claim's condition `now ≥ cooloff_deadline` holds, so it predicts `true`, but
`is_healthy` compares with strict `<` (`cooloff_done_at < now`) and returns
`false`. -/
theorem health_is_healthy_claim_counterexample :
    ¬ (((hEx5.is_healthy 5).1 = true) ↔
      (hEx5.cooloff_enabled = false ∨ hEx5.in_cooloff = false ∨ 5 ≥ hEx5.cooloff_done_at)) := by
  decide

/-- Witness for `health_is_healthy_spec` at `now = 6`, `hEx5`: the reset
clause fires. -/
theorem health_is_healthy_spec_witness :
    (hEx5.is_healthy 6).2 =
      { hEx5 with error_count := 0, in_cooloff := false, epoch := hEx5.epoch + 1 } :=
  (health_is_healthy_spec 6 hEx5).2.1 rfl rfl (by decide)

/-- C6: while cool-off is enabled every `increment_error` call increases
`error_count` by one; if the incremented count has reached `error_limit` and
the backend is not already in cool-off it transitions to cooling
(`in_cooloff` set, `cooloff_done_at = now + cooloff_period_ms`, `epoch`
bumped), otherwise only the count changes; with cool-off disabled the call is
a no-op; and `epoch` is bumped on every transition into cool-off
(`increment_error`) and on every transition back to healthy (`is_healthy`). -/
theorem health_increment_error_spec (now : Nat) (h : BackendHealth) :
    (h.cooloff_enabled = false → h.increment_error now = h)
    ∧ (h.cooloff_enabled = true → (h.increment_error now).error_count = h.error_count + 1)
    ∧ (h.cooloff_enabled = true → h.error_limit ≤ h.error_count + 1 → h.in_cooloff = false →
        h.increment_error now =
          { h with
            error_count := h.error_count + 1
            in_cooloff := true
            epoch := h.epoch + 1
            cooloff_done_at := now + h.cooloff_period_ms })
    ∧ (h.cooloff_enabled = true → (h.error_count + 1 < h.error_limit ∨ h.in_cooloff = true) →
        h.increment_error now = { h with error_count := h.error_count + 1 })
    ∧ ((h.increment_error now).in_cooloff = true → h.in_cooloff = false →
        (h.increment_error now).epoch = h.epoch + 1)
    ∧ ((h.is_healthy now).2.in_cooloff = false → h.in_cooloff = true →
        (h.is_healthy now).2.epoch = h.epoch + 1) := by
  cases he : h.cooloff_enabled <;> cases hi : h.in_cooloff <;>
    by_cases hl : h.error_limit ≤ h.error_count + 1 <;>
      by_cases hd : h.cooloff_done_at < now <;>
        simp [BackendHealth.increment_error, BackendHealth.is_healthy, he, hi, hl, hd]

/-- Witness for `health_increment_error_spec` at `now = 2`, `hEx6`: the
transition-into-cool-off clause fires. -/
theorem health_increment_error_spec_witness :
    hEx6.increment_error 2 =
      { hEx6 with
        error_count := hEx6.error_count + 1
        in_cooloff := true
        epoch := hEx6.epoch + 1
        cooloff_done_at := 2 + hEx6.cooloff_period_ms } :=
  (health_increment_error_spec 2 hEx6).2.2.1 rfl (by decide) rfl

/-! ### C7: the routing key -/

/-- C7, counterexample to the claim as stated: on a one-element array command
the source extracts the key from the *first* element, while the claim's
reading (second element, else no key) yields none. -/
theorem get_message_key_claim_counterexample :
    get_message_key msgPing = some [112, 105, 110, 103]
    ∧ claimed_message_key msgPing = none
    ∧ get_message_key msgPing ≠ claimed_message_key msgPing := by
  refine ⟨rfl, rfl, by decide⟩

/-- C7 (amended): `get_message_key` returns exactly the key described by the
amended claim — second element for arrays of length at least two, first
element for shorter arrays, none (a panic in the source) for everything
else. -/
theorem get_message_key_amended (msg : RedisMessage) :
    get_message_key msg = amended_message_key msg := by
  cases msg with
  | Bulk buf args =>
    simp only [get_message_key, amended_message_key]
    by_cases hl : args.length < 2
    · have hl2 : ¬ 2 ≤ args.length := by omega
      simp [hl, hl2]
    · have hl2 : 2 ≤ args.length := by omega
      simp [hl, hl2]
  | Null => rfl
  | Status buf offset => rfl
  | ErrorReply description => rfl
  | IntegerReply value => rfl
  | Data buf offset => rfl

/-! ### C9: vectored error responses -/

theorem foldl_append_pairs (m : RedisMessage) (idxs : List Nat) :
    ∀ acc : List (Nat × RedisMessage),
      idxs.foldl (fun msgs i => msgs ++ [(i, m)]) acc = acc ++ idxs.map (fun i => (i, m)) := by
  induction idxs with
  | nil => intro acc; simp
  | cons x xs ih => intro acc; simp [ih]

/-- C9: `to_vectored_error_response` produces exactly one `(index, error
reply)` pair per input index, in the same order as the submitted indexes,
each carrying the protocol error built from the I/O error. -/
theorem to_vectored_error_response_spec (err : String) (indexes : List Nat) :
    (to_vectored_error_response err indexes).map Prod.fst = indexes
    ∧ (to_vectored_error_response err indexes).map Prod.snd =
        List.replicate indexes.length (RedisMessage.from_error err) := by
  unfold to_vectored_error_response
  rw [foldl_append_pairs]
  simp only [List.nil_append, List.map_map]
  constructor
  · induction indexes with
    | nil => rfl
    | cons x xs ih => simp only [List.map_cons, Function.comp, ih]
  · induction indexes with
    | nil => rfl
    | cons x xs ih => simp [ih, List.replicate_succ]

/-! ### C8: submission order of the fan-out -/

theorem insertGrouped_fsts (groups : List (Nat × List (Nat × RedisMessage))) (b : Nat)
    (e : Nat × RedisMessage) :
    (insertGrouped groups b e).map Prod.fst =
      if b ∈ groups.map Prod.fst then groups.map Prod.fst
      else groups.map Prod.fst ++ [b] := by
  induction groups with
  | nil => simp [insertGrouped]
  | cons g rest ih =>
    obtain ⟨gb, ges⟩ := g
    by_cases hb : gb = b
    · subst hb
      simp [insertGrouped]
    · have hb' : ¬ b = gb := fun hc => hb hc.symm
      by_cases hmem : b ∈ rest.map Prod.fst <;>
        simp [insertGrouped, hb, hb', hmem, ih]

theorem firstOccurrences_congr (bs : List Nat) :
    ∀ seen1 seen2 : List Nat, (∀ x, x ∈ seen1 ↔ x ∈ seen2) →
      firstOccurrences seen1 bs = firstOccurrences seen2 bs := by
  induction bs with
  | nil => intro seen1 seen2 _; rfl
  | cons x xs ih =>
    intro seen1 seen2 hiff
    by_cases hx : x ∈ seen1
    · have hx2 : x ∈ seen2 := (hiff x).mp hx
      simp [firstOccurrences, hx, hx2, ih seen1 seen2 hiff]
    · have hx2 : x ∉ seen2 := fun hc => hx ((hiff x).mpr hc)
      have hiff' : ∀ y, y ∈ x :: seen1 ↔ y ∈ x :: seen2 := by
        intro y
        simp only [List.mem_cons]
        exact or_congr Iff.rfl (hiff y)
      simp [firstOccurrences, hx, hx2, ih (x :: seen1) (x :: seen2) hiff']

theorem assignLoop_order (idx : Buf → Nat) (msgs : List RedisMessage) :
    ∀ (i : Nat) (acc : List (Nat × List (Nat × RedisMessage))),
      (assignLoop idx msgs i acc).map (fun groups => groups.map Prod.fst) =
        (messageKeys msgs).map
          (fun ks => acc.map Prod.fst ++ firstOccurrences (acc.map Prod.fst) (ks.map idx)) := by
  induction msgs with
  | nil => intro i acc; simp [assignLoop, messageKeys, firstOccurrences]
  | cons m rest ih =>
    intro i acc
    cases hk : get_message_key m with
    | none => simp [assignLoop, messageKeys, hk]
    | some k =>
      simp only [assignLoop, messageKeys, hk]
      rw [ih]
      cases hmk : messageKeys rest with
      | none => rfl
      | some ks =>
        simp only [Option.map_some']
        congr 1
        rw [insertGrouped_fsts]
        by_cases hb : idx k ∈ acc.map Prod.fst
        · simp [hb, firstOccurrences]
        · simp only [hb, if_false, List.map_cons, firstOccurrences, if_neg hb,
            List.append_assoc, List.singleton_append]
          congr 1
          congr 1
          exact firstOccurrences_congr (ks.map idx) (acc.map Prod.fst ++ [idx k])
            (idx k :: acc.map Prod.fst) (by intro y; simp [or_comm])

/-- C8 (amended): under the insertion-ordered model of the grouping
`HashMap`, the sub-batches of one fan-out are submitted in the order each
backend index is *first encountered* in the request batch — not in ascending
backend-index order (and the real `std::collections::HashMap` gives no
ordering guarantee at all). -/
theorem generate_submission_order_first_encounter (idx : Buf → Nat)
    (messages : List RedisMessage) :
    generate_submission_order idx messages =
      (messageKeys messages).map (fun ks => firstOccurrences [] (ks.map idx)) := by
  unfold generate_submission_order
  rw [assignLoop_order]
  rfl

/-- C8, counterexample to the claim as stated: with `msgKeyA` (backend 1)
ahead of `msgKeyB` (backend 0) in the batch, the sub-batches are visited in
first-encounter order `[1, 0]`, which is not ascending. -/
theorem generate_submission_order_claim_counterexample :
    generate_submission_order idxEx [msgKeyA, msgKeyB] = some [1, 0]
    ∧ ¬ List.Sorted (· ≤ ·) [1, 0] := by
  exact ⟨by decide, by decide⟩

/-! ### C4 and C10: fulfilment -/

theorem alookup_setAll {α : Type} (l : List (Nat × α)) (k k' : Nat) (v : α) :
    alookup (l.map (fun e => if e.1 = k then (k, v) else e)) k' =
      if k' = k then (alookup l k).map (fun _ => v) else alookup l k' := by
  induction l with
  | nil => by_cases hk : k' = k <;> simp [alookup, hk]
  | cons e rest ih =>
    obtain ⟨ek, ev⟩ := e
    by_cases hek : ek = k
    · by_cases hk' : k' = k
      · simp [alookup, hek, hk', ih]
      · have h2 : ¬ k = k' := fun hc => hk' hc.symm
        simp [alookup, hek, hk', h2, ih]
    · by_cases h1 : ek = k'
      · have hk' : ¬ k' = k := by
          rw [← h1]
          exact fun hc => hek hc
        simp [alookup, hek, h1, hk']
      · simp [alookup, hek, h1, ih]

theorem alookup_slabSet_entries {α : Type} (s : Slab α) (k k' : Nat) (v : α) :
    alookup (slabSet s k v).entries k' =
      if k' = k then (alookup s.entries k).map (fun _ => v) else alookup s.entries k' := by
  simp only [slabSet]
  exact alookup_setAll s.entries k k' v

theorem slabContains_slabSet {α : Type} (s : Slab α) (k k' : Nat) (v : α) :
    slabContains (slabSet s k v) k' = slabContains s k' := by
  unfold slabContains slabGet
  rw [alookup_slabSet_entries]
  by_cases hk : k' = k
  · subst hk
    simp only [if_pos rfl]
    cases alookup s.entries k' <;> simp
  · simp [hk]

theorem fulfill_cons_present {M : Type} (p : Processor M) (k : Nat) (r : MessageResponse M)
    (rest : List (Nat × MessageResponse M)) (q : MessageQueue M) (w : Option M)
    (hck : alookup q.slots.entries k = some w) :
    fulfill p ((k, r) :: rest) q =
      fulfill p rest { q with slots := slabSet q.slots k (some (respMsg p r)) } := by
  cases r <;> simp [fulfill, hck, respMsg]

/-- C4: when every batch entry names a live slot, `fulfill` succeeds and
afterwards each slot named by the batch holds its last assigned response —
a `Complete` message unchanged, or the processor's protocol error message in
place of `Failed` — while unnamed slots are untouched; and whenever some
entry names a slot id absent from the allocator, `fulfill` returns an
error. -/
theorem mq_fulfill_spec {M : Type} (p : Processor M) (batch : List (Nat × MessageResponse M))
    (q : MessageQueue M) :
    ((∀ e ∈ batch, slabContains q.slots e.1 = true) →
      (fulfill p batch q).1 = Except.ok ()
      ∧ ∀ sid, alookup (fulfill p batch q).2.slots.entries sid =
          match lastAssign batch sid with
          | some (MessageResponse.Complete m) => some (some m)
          | some MessageResponse.Failed =>
              some (some (p.get_error_message_str "failed to receive response"))
          | none => alookup q.slots.entries sid)
    ∧ ((∃ e ∈ batch, slabContains q.slots e.1 = false) →
        (fulfill p batch q).1 = Except.error ()) := by
  induction batch generalizing q with
  | nil =>
    refine ⟨fun _ => ⟨rfl, fun sid => rfl⟩, fun hex => ?_⟩
    obtain ⟨e, he, _⟩ := hex
    exact absurd he (List.not_mem_nil e)
  | cons entry rest ih =>
    obtain ⟨k, r⟩ := entry
    constructor
    · intro hall
      have hk : slabContains q.slots k = true := hall (k, r) (List.mem_cons_self _ _)
      cases hck : alookup q.slots.entries k with
      | none => simp [slabContains, slabGet, hck] at hk
      | some w =>
        have hstep := fulfill_cons_present p k r rest q w hck
        set q1 : MessageQueue M :=
          { q with slots := slabSet q.slots k (some (respMsg p r)) } with hq1
        have hall1 : ∀ e ∈ rest, slabContains q1.slots e.1 = true := by
          intro e he
          rw [hq1]
          simp only [slabContains_slabSet]
          exact hall e (List.mem_cons_of_mem _ he)
        obtain ⟨hok1, hlook1⟩ := (ih q1).1 hall1
        refine ⟨by rw [hstep]; exact hok1, fun sid => ?_⟩
        rw [hstep]
        rw [hlook1 sid]
        cases hla : lastAssign rest sid with
        | some r' => cases r' <;> simp [lastAssign, hla]
        | none =>
          simp only [lastAssign, hla]
          by_cases hks : k = sid
          · subst hks
            simp only [if_pos rfl]
            rw [alookup_slabSet_entries]
            simp only [if_pos rfl, hck, Option.map_some']
            cases r <;> simp [respMsg]
          · have hks' : ¬ sid = k := fun hc => hks hc.symm
            simp only [if_neg hks]
            rw [alookup_slabSet_entries]
            simp [hks']
    · intro hex
      obtain ⟨e, he, hbad⟩ := hex
      rcases List.mem_cons.mp he with heq | hrest
      · rw [heq] at hbad
        have hnone : alookup q.slots.entries k = none := by
          cases hck : alookup q.slots.entries k with
          | none => rfl
          | some w => simp [slabContains, slabGet, hck] at hbad
        simp [fulfill, hnone]
      · cases hck : alookup q.slots.entries k with
        | none => simp [fulfill, hck]
        | some w =>
          rw [fulfill_cons_present p k r rest q w hck]
          refine (ih _).2 ⟨e, hrest, ?_⟩
          simp only [slabContains_slabSet]
          exact hbad

/-- C10: `fulfill` is not atomic on error — with every slot of `pre` live and
`bad` absent, fulfilling `pre ++ (bad, r) :: post` returns an error while
leaving exactly the effects of fulfilling `pre` in place: the entries before
the offender are installed and stay installed, the offender and everything
after it are not. -/
theorem mq_fulfill_partial {M : Type} (p : Processor M) (pre post : List (Nat × MessageResponse M))
    (bad : Nat) (r : MessageResponse M) (q : MessageQueue M)
    (hpre : ∀ e ∈ pre, slabContains q.slots e.1 = true)
    (hbad : slabContains q.slots bad = false) :
    fulfill p (pre ++ (bad, r) :: post) q = (Except.error (), (fulfill p pre q).2)
    ∧ (fulfill p pre q).1 = Except.ok () := by
  induction pre generalizing q with
  | nil =>
    have : alookup q.slots.entries bad = none := by
      cases hck : alookup q.slots.entries bad with
      | none => rfl
      | some w => simp [slabContains, slabGet, hck] at hbad
    simp [fulfill, this]
  | cons entry rest ih =>
    obtain ⟨k, rr⟩ := entry
    have hk : slabContains q.slots k = true := hpre (k, rr) (List.mem_cons_self _ _)
    cases hck : alookup q.slots.entries k with
    | none => simp [slabContains, slabGet, hck] at hk
    | some w =>
      set q1 : MessageQueue M :=
        { q with slots := slabSet q.slots k (some (respMsg p rr)) } with hq1
      have hstep : ∀ tail, fulfill p ((k, rr) :: tail) q = fulfill p tail q1 := by
        intro tail
        rw [hq1]
        exact fulfill_cons_present p k rr tail q w hck
      have hpre1 : ∀ e ∈ rest, slabContains q1.slots e.1 = true := by
        intro e he
        rw [hq1]
        simp only [slabContains_slabSet]
        exact hpre e (List.mem_cons_of_mem _ he)
      have hbad1 : slabContains q1.slots bad = false := by
        rw [hq1]
        simp only [slabContains_slabSet]
        exact hbad
      have := ih q1 hpre1 hbad1
      rw [List.cons_append, hstep (rest ++ (bad, r) :: post), hstep rest]
      exact this

/-- Witness for `mq_fulfill_spec`: fulfilling slots 0 (`Complete 7`) and 1
(`Failed`) of `qEx4` succeeds. -/
theorem mq_fulfill_spec_witness :
    (fulfill pEx [(0, MessageResponse.Complete 7), (1, MessageResponse.Failed)] qEx4).1 =
      Except.ok () :=
  ((mq_fulfill_spec pEx [(0, MessageResponse.Complete 7), (1, MessageResponse.Failed)] qEx4).1
    (by decide)).1

/-- Witness for `mq_fulfill_partial`: slot 0 is live, slot 5 is not; the call
errors with slot 0's installation retained. -/
theorem mq_fulfill_partial_witness :
    fulfill pEx ([(0, MessageResponse.Complete 7)] ++ (5, MessageResponse.Failed) :: []) qEx4 =
      (Except.error (), (fulfill pEx [(0, MessageResponse.Complete 7)] qEx4).2)
    ∧ (fulfill pEx [(0, MessageResponse.Complete 7)] qEx4).1 = Except.ok () :=
  mq_fulfill_partial pEx [(0, MessageResponse.Complete 7)] [] 5 MessageResponse.Failed qEx4
    (by decide) (by decide)

/-! ### C1: enqueue -/

theorem enqueueLoop_eq {M : Type} (pieces : List (MessageState × M)) :
    ∀ (q : MessageQueue M) (acc : List (Nat × M)),
      enqueueLoop pieces q acc =
        (acc ++ ((enumFrom q.slots.nextId pieces).filter
            (fun e => decide (e.2.1 ≠ MessageState.Inline))).map (fun e => (e.1, e.2.2)),
         { input_closed := q.input_closed
           output_closed := q.output_closed
           slot_order := q.slot_order ++ (enumFrom q.slots.nextId pieces).map (fun e => (e.1, e.2.1))
           slots := ⟨q.slots.nextId + pieces.length,
             q.slots.entries ++ (enumFrom q.slots.nextId pieces).map
               (fun e => (e.1, if e.2.1 = MessageState.Inline then some e.2.2 else none))⟩ }) := by
  induction pieces with
  | nil =>
    intro q acc
    obtain ⟨ic, oc, so, nid, ents⟩ := q
    simp [enqueueLoop, enumFrom]
  | cons piece rest ih =>
    intro q acc
    obtain ⟨st, m⟩ := piece
    by_cases hst : st = MessageState.Inline
    · subst hst
      simp only [enqueueLoop, if_pos rfl, slabInsert]
      rw [ih]
      refine congrArg₂ Prod.mk ?_ ?_
      · simp [enumFrom, List.filter_cons]
      · simp only [enumFrom, List.map_cons, List.length_cons, MessageQueue.mk.injEq,
          Slab.mk.injEq]
        refine ⟨trivial, trivial, ?_, ?_, ?_⟩
        · simp [List.append_assoc]
        · omega
        · simp [List.append_assoc]
    · simp only [enqueueLoop, if_neg hst, slabInsert]
      rw [ih]
      refine congrArg₂ Prod.mk ?_ ?_
      · simp [enumFrom, List.filter_cons, hst, List.append_assoc]
      · simp only [enumFrom, List.map_cons, List.length_cons, MessageQueue.mk.injEq,
          Slab.mk.injEq]
        refine ⟨trivial, trivial, ?_, ?_, ?_⟩
        · simp [List.append_assoc]
        · omega
        · simp [List.append_assoc, hst]

theorem enumFrom_keys_ge {α : Type} :
    ∀ (l : List α) (n : Nat), ∀ e ∈ enumFrom n l, n ≤ e.1 := by
  intro l
  induction l with
  | nil => intro n e he; exact absurd he (List.not_mem_nil e)
  | cons x xs ih =>
    intro n e he
    rcases List.mem_cons.mp he with heq | htail
    · rw [heq]
    · exact Nat.le_of_succ_le (ih (n + 1) e htail)

theorem alookup_enumFrom_block {α β : Type} (f : α → β) :
    ∀ (l : List α) (n k : Nat) (x : α), l.get? k = some x →
      alookup ((enumFrom n l).map (fun e => (e.1, f e.2))) (n + k) = some (f x) := by
  intro l
  induction l with
  | nil => intro n k x hx; simp at hx
  | cons y ys ih =>
    intro n k x hx
    cases k with
    | zero =>
      simp only [List.get?] at hx
      cases hx
      simp [enumFrom, alookup]
    | succ k' =>
      simp only [List.get?] at hx
      have hne : ¬ n = n + (k' + 1) := by omega
      have := ih (n + 1) k' x hx
      simp only [enumFrom, List.map_cons, alookup, if_neg hne]
      rw [show n + 1 + k' = n + (k' + 1) by omega] at this
      exact this

/-- C1: `enqueue` first fragments the input via the processor; a fresh slot
is allocated for each resulting `(state, message)` piece in order,
`(slot_id, state)` is appended to the back of the ordered queue, `Inline`
pieces are installed into their slot at creation and omitted from the
returned batch, and every other piece leaves its slot empty and contributes
`(slot_id, message)` to the returned dispatch batch in fragment order.
Pre-existing slots are untouched.  (`hwf` is the slab invariant: every live
key is below the fresh-key counter.) -/
theorem mq_enqueue_spec {M : Type} (p : Processor M) (q : MessageQueue M) (msgs : List M)
    (pieces : List (MessageState × M))
    (hf : p.fragment_messages msgs = Except.ok pieces)
    (hwf : ∀ e ∈ q.slots.entries, e.1 < q.slots.nextId) :
    ∃ batch q', enqueue p q msgs = Except.ok (batch, q')
      ∧ q'.input_closed = q.input_closed
      ∧ q'.output_closed = q.output_closed
      ∧ q'.slot_order = q.slot_order ++ (enumFrom q.slots.nextId pieces).map (fun e => (e.1, e.2.1))
      ∧ batch = ((enumFrom q.slots.nextId pieces).filter
          (fun e => decide (e.2.1 ≠ MessageState.Inline))).map (fun e => (e.1, e.2.2))
      ∧ q'.slots.nextId = q.slots.nextId + pieces.length
      ∧ q'.slots.entries = q.slots.entries ++ (enumFrom q.slots.nextId pieces).map
          (fun e => (e.1, if e.2.1 = MessageState.Inline then some e.2.2 else none))
      ∧ (∀ k st m, pieces.get? k = some (st, m) →
          alookup q'.slots.entries (q.slots.nextId + k) =
            some (if st = MessageState.Inline then some m else none))
      ∧ (∀ id, id < q.slots.nextId →
          alookup q'.slots.entries id = alookup q.slots.entries id) := by
  have henq : enqueue p q msgs = Except.ok (enqueueLoop pieces q []) := by
    simp [enqueue, hf]
  rw [enqueueLoop_eq pieces q []] at henq
  refine ⟨_, _, henq, rfl, rfl, rfl, by simp, rfl, rfl, ?_, ?_⟩
  · intro k st m hget
    have hblock := alookup_enumFrom_block
      (fun pc => if pc.1 = MessageState.Inline then some pc.2 else none)
      pieces q.slots.nextId k (st, m) hget
    have hents : alookup q.slots.entries (q.slots.nextId + k) = none := by
      refine alookup_eq_none _ _ (fun e he => ?_)
      have := hwf e he
      omega
    rw [alookup_append, hents]
    exact hblock
  · intro id hid
    rw [alookup_append]
    cases hck : alookup q.slots.entries id with
    | some w => rfl
    | none =>
      refine alookup_eq_none _ _ (fun e he => ?_)
      rcases List.mem_map.mp he with ⟨e0, he0, heq⟩
      have := enumFrom_keys_ge pieces q.slots.nextId e0 he0
      rw [← heq]
      simp only []
      omega

/-- Witness for `mq_enqueue_spec`: enqueue two messages onto `qEx4` (whose
slab holds keys 0 and 1 with fresh counter 2) under `pEx`, whose fragmenter
tags every message `Standalone`. -/
theorem mq_enqueue_spec_witness :
    ∃ batch q', enqueue pEx qEx4 [5, 6] = Except.ok (batch, q')
      ∧ q'.input_closed = qEx4.input_closed
      ∧ q'.output_closed = qEx4.output_closed
      ∧ q'.slot_order = qEx4.slot_order ++
          (enumFrom qEx4.slots.nextId [(MessageState.Standalone, 5), (MessageState.Standalone, 6)]).map
            (fun e => (e.1, e.2.1))
      ∧ batch = ((enumFrom qEx4.slots.nextId
            [(MessageState.Standalone, 5), (MessageState.Standalone, 6)]).filter
          (fun e => decide (e.2.1 ≠ MessageState.Inline))).map (fun e => (e.1, e.2.2))
      ∧ q'.slots.nextId = qEx4.slots.nextId +
          [(MessageState.Standalone, 5), (MessageState.Standalone, 6)].length
      ∧ q'.slots.entries = qEx4.slots.entries ++
          (enumFrom qEx4.slots.nextId
            [(MessageState.Standalone, 5), (MessageState.Standalone, 6)]).map
            (fun e => (e.1, if e.2.1 = MessageState.Inline then some e.2.2 else none))
      ∧ (∀ k st m,
          [(MessageState.Standalone, 5), (MessageState.Standalone, 6)].get? k = some (st, m) →
          alookup q'.slots.entries (qEx4.slots.nextId + k) =
            some (if st = MessageState.Inline then some m else none))
      ∧ (∀ id, id < qEx4.slots.nextId →
          alookup q'.slots.entries id = alookup qEx4.slots.entries id) :=
  mq_enqueue_spec pEx qEx4 [5, 6] [(MessageState.Standalone, 5), (MessageState.Standalone, 6)]
    rfl (by decide)

/-! ### C2: the fragmented-group gate -/

theorem alookup_erase_ne {α : Type} (l : List (Nat × α)) (k k' : Nat) (hne : k' ≠ k) :
    alookup (l.filter (fun e => decide (e.1 ≠ k))) k' = alookup l k' := by
  induction l with
  | nil => rfl
  | cons e rest ih =>
    by_cases he : e.1 = k
    · have h1 : ¬ e.1 = k' := by
        rw [he]
        exact fun hc => hne hc.symm
      have hd : decide (e.1 ≠ k) = false := by simp [he]
      simp only [List.filter_cons, hd, Bool.false_eq_true, if_false, alookup, if_neg h1]
      exact ih
    · have hd : decide (e.1 ≠ k) = true := by simp [he]
      simp only [List.filter_cons, hd, if_true, alookup]
      by_cases h2 : e.1 = k'
      · simp only [if_pos h2]
      · simp only [if_neg h2]
        exact ih

theorem alookup_slabErase {α : Type} (s : Slab α) (k k' : Nat) (hne : k' ≠ k) :
    alookup (slabErase s k).entries k' = alookup s.entries k' := by
  simp only [slabErase]
  exact alookup_erase_ne s.entries k k' hne

theorem is_slot_ready_tail {M : Type} (q : MessageQueue M) (sid : Nat) (st : MessageState)
    (rest : List (Nat × MessageState))
    (horder : q.slot_order = (sid, st) :: rest)
    (hfresh : sid ∉ rest.map Prod.fst) (j : Nat) :
    is_slot_ready { q with slot_order := rest, slots := slabErase q.slots sid } j =
      is_slot_ready q (j + 1) := by
  unfold is_slot_ready
  simp only [horder, List.get?_cons_succ]
  cases hj : rest.get? j with
  | none => rfl
  | some e =>
    obtain ⟨id', st'⟩ := e
    have hmem : id' ∈ rest.map Prod.fst :=
      List.mem_map.mpr ⟨(id', st'), List.get?_mem hj, rfl⟩
    have hne : id' ≠ sid := fun hc => hfresh (hc ▸ hmem)
    have hrw := alookup_slabErase q.slots sid id' hne
    simp [hrw]

theorem takeFragments_of_ready {M : Type} :
    ∀ (n : Nat) (q : MessageQueue M),
      (∀ j, j < n → is_slot_ready q j = true) →
      (q.slot_order.map Prod.fst).Nodup →
      ∃ frs q', takeFragments n q = some (frs, q')
        ∧ frs.length = n
        ∧ (∀ k, k < n → ∃ sid st m, q.slot_order.get? k = some (sid, st)
            ∧ alookup q.slots.entries sid = some (some m)
            ∧ frs.get? k = some (st, m))
        ∧ q'.slot_order = q.slot_order.drop n
        ∧ q'.slots = removeIds ((q.slot_order.take n).map Prod.fst) q.slots
        ∧ q'.input_closed = q.input_closed
        ∧ q'.output_closed = q.output_closed := by
  intro n
  induction n with
  | zero =>
    intro q _ _
    refine ⟨[], q, rfl, rfl, fun k hk => absurd hk (Nat.not_lt_zero k), ?_, ?_, rfl, rfl⟩
    · simp
    · simp [removeIds]
  | succ n ih =>
    intro q hready hnd
    have h0 : is_slot_ready q 0 = true := hready 0 (Nat.succ_pos n)
    cases horder : q.slot_order with
    | nil => simp [is_slot_ready, horder] at h0
    | cons e rest =>
      obtain ⟨sid, st⟩ := e
      have hlk : ∃ m, alookup q.slots.entries sid = some (some m) := by
        unfold is_slot_ready at h0
        simp only [horder, List.get?_cons_zero] at h0
        cases hl : alookup q.slots.entries sid with
        | none => rw [hl] at h0; simp at h0
        | some w =>
          cases w with
          | none => rw [hl] at h0; simp at h0
          | some m => exact ⟨m, rfl⟩
      obtain ⟨m, hlk⟩ := hlk
      have hnd' : ((q.slot_order.map Prod.fst)) = sid :: rest.map Prod.fst := by
        rw [horder]; rfl
      rw [hnd'] at hnd
      have hfresh : sid ∉ rest.map Prod.fst := (List.nodup_cons.mp hnd).1
      have hndrest : (rest.map Prod.fst).Nodup := (List.nodup_cons.mp hnd).2
      set q1 : MessageQueue M :=
        { q with slot_order := rest, slots := slabErase q.slots sid } with hq1
      have hready1 : ∀ j, j < n → is_slot_ready q1 j = true := by
        intro j hj
        rw [hq1, is_slot_ready_tail q sid st rest horder hfresh j]
        exact hready (j + 1) (Nat.succ_lt_succ hj)
      have hnd1 : (q1.slot_order.map Prod.fst).Nodup := hndrest
      obtain ⟨frs', q'', htf, hlen, helems, hdrop, hslots, hic, hoc⟩ := ih q1 hready1 hnd1
      refine ⟨(st, m) :: frs', q'', ?_, ?_, ?_, ?_, ?_, hic, hoc⟩
      · have hq1tf : takeFragments n q1 = some (frs', q'') := htf
        show takeFragments (n + 1) q = some ((st, m) :: frs', q'')
        unfold takeFragments
        simp only [horder]
        simp [hlk, ← hq1, hq1tf]
      · simp [hlen]
      · intro k hk
        cases k with
        | zero =>
          exact ⟨sid, st, m, rfl, hlk, rfl⟩
        | succ k' =>
          have hk' : k' < n := Nat.lt_of_succ_lt_succ hk
          obtain ⟨sid', st', m', hget, hlook, hfr⟩ := helems k' hk'
          have hmem : sid' ∈ rest.map Prod.fst :=
            List.mem_map.mpr ⟨(sid', st'), List.get?_mem hget, rfl⟩
          have hne : sid' ≠ sid := fun hc => hfresh (hc ▸ hmem)
          refine ⟨sid', st', m', hget, ?_, hfr⟩
          rw [← alookup_slabErase q.slots sid sid' hne]
          exact hlook
      · rw [hdrop]
        rfl
      · rw [hslots]
        rfl

theorem range_all_iff (f : Nat → Bool) (n : Nat) :
    (List.range n).all f = true ↔ ∀ j, j < n → f j = true := by
  simp [List.all_eq_true, List.mem_range]

theorem ready_zero_lookup {M : Type} (q : MessageQueue M) (sid : Nat) (st : MessageState)
    (rest : List (Nat × MessageState))
    (horder : q.slot_order = (sid, st) :: rest)
    (h0 : is_slot_ready q 0 = true) :
    ∃ m, alookup q.slots.entries sid = some (some m) := by
  unfold is_slot_ready at h0
  simp only [horder, List.get?_cons_zero] at h0
  cases hl : alookup q.slots.entries sid with
  | none => rw [hl] at h0; simp at h0
  | some w =>
    cases w with
    | none => rw [hl] at h0; simp at h0
    | some m => exact ⟨m, rfl⟩

theorem getNextResponse_fragmented_eval {M : Type} (p : Processor M) (q : MessageQueue M)
    (sid : Nat) (b : Buf) (i n : Nat) (rest : List (Nat × MessageState)) (m : M)
    (horder : q.slot_order = (sid, MessageState.Fragmented b i n) :: rest)
    (hlk : alookup q.slots.entries sid = some (some m)) :
    getNextResponse p q =
      (if (List.range n).all (fun index => is_slot_ready q index) then
        match takeFragments n q with
        | some (fragments, q') =>
          (match p.defragment_messages fragments with
           | Except.ok mm => (PollResp.ready (p.into_buf mm), q')
           | Except.error _ => (PollResp.error, q'))
        | none => (PollResp.notReady, q)
      else (PollResp.notReady, q)) := by
  have h0 : is_slot_ready q 0 = true := by
    unfold is_slot_ready
    simp [horder, hlk]
  unfold getNextResponse
  simp only [h0, horder, List.head?_cons, hlk]
  rfl

/-- C2: with the head of the ordered queue tagged `Fragmented` with positive
fragment count `n` (and, as the queue maintains, no duplicate slot ids in the
order), no response is emitted unless all `n` slots at positions `0..n-1` are
filled — the poll returns not-ready and changes nothing; once they are all
filled, exactly those `n` `(state, message)` pairs are popped off the front,
removed from the allocator, handed to the processor's `defragment_messages`,
and its coalesced result is emitted as the single response. -/
theorem mq_fragmented_gate {M : Type} (p : Processor M) (q : MessageQueue M) (sid : Nat)
    (b : Buf) (i n : Nat)
    (hhead : q.slot_order.head? = some (sid, MessageState.Fragmented b i n))
    (hn : 0 < n)
    (hnd : (q.slot_order.map Prod.fst).Nodup) :
    (¬ (∀ j, j < n → is_slot_ready q j = true) →
      getNextResponse p q = (PollResp.notReady, q))
    ∧ ((∀ j, j < n → is_slot_ready q j = true) →
        ∃ frs q', takeFragments n q = some (frs, q')
          ∧ frs.length = n
          ∧ (∀ k, k < n → ∃ sid' st m, q.slot_order.get? k = some (sid', st)
              ∧ alookup q.slots.entries sid' = some (some m)
              ∧ frs.get? k = some (st, m))
          ∧ q'.slot_order = q.slot_order.drop n
          ∧ q'.slots = removeIds ((q.slot_order.take n).map Prod.fst) q.slots
          ∧ getNextResponse p q =
              ((match p.defragment_messages frs with
                | Except.ok mm => PollResp.ready (p.into_buf mm)
                | Except.error _ => PollResp.error), q')) := by
  obtain ⟨rest, horder0⟩ :
      ∃ rest, q.slot_order = (sid, MessageState.Fragmented b i n) :: rest := by
    cases hq : q.slot_order with
    | nil => rw [hq] at hhead; simp at hhead
    | cons e r =>
      rw [hq, List.head?_cons, Option.some_inj] at hhead
      subst hhead
      exact ⟨r, rfl⟩
  constructor
  · intro hnall
    cases h0 : is_slot_ready q 0 with
    | false => simp [getNextResponse, h0]
    | true =>
      obtain ⟨m, hlk⟩ := ready_zero_lookup q sid (MessageState.Fragmented b i n) rest horder0 h0
      rw [getNextResponse_fragmented_eval p q sid b i n rest m horder0 hlk]
      have hallf : (List.range n).all (fun index => is_slot_ready q index) = false := by
        cases hb : (List.range n).all (fun index => is_slot_ready q index) with
        | false => rfl
        | true => exact absurd ((range_all_iff _ n).mp hb) hnall
      simp [hallf]
  · intro hall
    have h0 : is_slot_ready q 0 = true := hall 0 hn
    obtain ⟨m, hlk⟩ := ready_zero_lookup q sid (MessageState.Fragmented b i n) rest horder0 h0
    obtain ⟨frs, q', htf, hlen, helems, hdrop, hslots, _, _⟩ :=
      takeFragments_of_ready n q hall hnd
    refine ⟨frs, q', htf, hlen, helems, hdrop, hslots, ?_⟩
    rw [getNextResponse_fragmented_eval p q sid b i n rest m horder0 hlk]
    have hallt : (List.range n).all (fun index => is_slot_ready q index) = true :=
      (range_all_iff _ n).mpr hall
    simp only [hallt, if_true, htf]
    cases p.defragment_messages frs <;> rfl

/-- Witness for `mq_fragmented_gate` on `qEx2` under `pEx`. -/
theorem mq_fragmented_gate_witness :
    (¬ (∀ j, j < 2 → is_slot_ready qEx2 j = true) →
      getNextResponse pEx qEx2 = (PollResp.notReady, qEx2))
    ∧ ((∀ j, j < 2 → is_slot_ready qEx2 j = true) →
        ∃ frs q', takeFragments 2 qEx2 = some (frs, q')
          ∧ frs.length = 2
          ∧ (∀ k, k < 2 → ∃ sid' st m, qEx2.slot_order.get? k = some (sid', st)
              ∧ alookup qEx2.slots.entries sid' = some (some m)
              ∧ frs.get? k = some (st, m))
          ∧ q'.slot_order = qEx2.slot_order.drop 2
          ∧ q'.slots = removeIds ((qEx2.slot_order.take 2).map Prod.fst) qEx2.slots
          ∧ getNextResponse pEx qEx2 =
              ((match pEx.defragment_messages frs with
                | Except.ok mm => PollResp.ready (pEx.into_buf mm)
                | Except.error _ => PollResp.error), q')) :=
  mq_fragmented_gate pEx qEx2 0 [] 0 2 rfl (by decide) (by decide)

/-! ### C3: ordered draining -/

theorem all_drop {α : Type} (pr : α → Bool) :
    ∀ (l : List α) (k : Nat), l.all pr = true → (l.drop k).all pr = true := by
  intro l
  induction l with
  | nil => intro k _; simp
  | cons x xs ih =>
    intro k h
    cases k with
    | zero => exact h
    | succ k' =>
      rw [List.drop_succ_cons]
      rw [List.all_cons, Bool.and_eq_true] at h
      exact ih k' h.2

theorem fragPosB_drop {M : Type} (q q1 : MessageQueue M) (k : Nat)
    (hpos : fragPosB q = true) (h : q1.slot_order = q.slot_order.drop k) :
    fragPosB q1 = true := by
  unfold fragPosB at hpos ⊢
  rw [h]
  exact all_drop _ q.slot_order k hpos

theorem takeFragments_succ {M : Type} (q : MessageQueue M) (n sid : Nat) (st : MessageState)
    (rest : List (Nat × MessageState)) (horder : q.slot_order = (sid, st) :: rest) :
    takeFragments (n + 1) q =
      (match alookup q.slots.entries sid with
       | some (some m) =>
         (match takeFragments n { q with slot_order := rest, slots := slabErase q.slots sid } with
          | some (frs, q') => some ((st, m) :: frs, q')
          | none => none)
       | _ => none) := by
  conv_lhs => unfold takeFragments
  rw [horder]

theorem takeFragments_some_shape {M : Type} :
    ∀ (n : Nat) (q : MessageQueue M) (frs : List (MessageState × M)) (q' : MessageQueue M),
      takeFragments n q = some (frs, q') →
      n ≤ q.slot_order.length
      ∧ q'.slot_order = q.slot_order.drop n
      ∧ q'.slots = removeIds ((q.slot_order.take n).map Prod.fst) q.slots := by
  intro n
  induction n with
  | zero =>
    intro q frs q' h
    have h' : ([] : List (MessageState × M)) = frs ∧ q = q' := by
      have := h
      unfold takeFragments at this
      rw [Option.some_inj, Prod.mk.injEq] at this
      exact this
    obtain ⟨h1, h2⟩ := h'
    subst h1
    subst h2
    exact ⟨Nat.zero_le _, (List.drop_zero _).symm, rfl⟩
  | succ n ih =>
    intro q frs q' h
    cases horder : q.slot_order with
    | nil =>
      unfold takeFragments at h
      rw [horder] at h
      simp at h
    | cons e rest =>
      obtain ⟨sid, st⟩ := e
      rw [takeFragments_succ q n sid st rest horder] at h
      cases hlk : alookup q.slots.entries sid with
      | none => rw [hlk] at h; simp at h
      | some w =>
        cases w with
        | none => rw [hlk] at h; simp at h
        | some m =>
          rw [hlk] at h
          cases htf : takeFragments n
              { q with slot_order := rest, slots := slabErase q.slots sid } with
          | none => rw [htf] at h; simp at h
          | some pr =>
            obtain ⟨frs', q''⟩ := pr
            rw [htf] at h
            simp only [Option.some.injEq, Prod.mk.injEq] at h
            obtain ⟨h1, h2⟩ := h
            subst h1
            subst h2
            obtain ⟨hle, hdrop, hslots⟩ := ih _ frs' q'' htf
            refine ⟨?_, ?_, ?_⟩
            · simpa using Nat.succ_le_succ hle
            · rw [hdrop]
              rfl
            · rw [hslots]
              rfl

theorem getNextResponse_step {M : Type} (p : Processor M) (q : MessageQueue M)
    (hpos : fragPosB q = true) :
    getNextResponse p q = (PollResp.notReady, q)
    ∨ (∃ buf q1 k, getNextResponse p q = (PollResp.ready buf, q1)
        ∧ 1 ≤ k ∧ k ≤ q.slot_order.length
        ∧ q1.slot_order = q.slot_order.drop k
        ∧ q1.slots = removeIds ((q.slot_order.take k).map Prod.fst) q.slots)
    ∨ (∃ q1 k, getNextResponse p q = (PollResp.error, q1)
        ∧ 1 ≤ k ∧ k ≤ q.slot_order.length
        ∧ q1.slot_order = q.slot_order.drop k
        ∧ q1.slots = removeIds ((q.slot_order.take k).map Prod.fst) q.slots) := by
  cases h0 : is_slot_ready q 0 with
  | false =>
    left
    simp [getNextResponse, h0]
  | true =>
    cases horder : q.slot_order with
    | nil =>
      left
      unfold is_slot_ready at h0
      rw [horder] at h0
      simp at h0
    | cons e rest =>
      obtain ⟨sid, st⟩ := e
      obtain ⟨m, hlk⟩ := ready_zero_lookup q sid st rest horder h0
      cases st with
      | Standalone =>
        refine Or.inr (Or.inl
          ⟨p.into_buf m, { q with slot_order := rest, slots := slabErase q.slots sid },
            1, ?_, le_refl 1, ?_, ?_, ?_⟩)
        · unfold getNextResponse
          simp [h0, horder, hlk]
        · simp
        · rfl
        · rfl
      | Inline =>
        refine Or.inr (Or.inl
          ⟨p.into_buf m, { q with slot_order := rest, slots := slabErase q.slots sid },
            1, ?_, le_refl 1, ?_, ?_, ?_⟩)
        · unfold getNextResponse
          simp [h0, horder, hlk]
        · simp
        · rfl
        · rfl
      | StreamingFragmented hopt =>
        cases hopt with
        | none =>
          refine Or.inr (Or.inl
            ⟨p.into_buf m, { q with slot_order := rest, slots := slabErase q.slots sid },
              1, ?_, le_refl 1, ?_, ?_, ?_⟩)
          · unfold getNextResponse
            simp [h0, horder, hlk]
          · simp
          · rfl
          · rfl
        | some header_buf =>
          refine Or.inr (Or.inl
            ⟨header_buf ++ p.into_buf m,
              { q with slot_order := rest, slots := slabErase q.slots sid },
              1, ?_, le_refl 1, ?_, ?_, ?_⟩)
          · unfold getNextResponse
            simp [h0, horder, hlk]
          · simp
          · rfl
          · rfl
      | Fragmented b i cnt =>
        have hcnt : 0 < cnt := by
          unfold fragPosB at hpos
          rw [horder, List.all_cons, Bool.and_eq_true] at hpos
          simpa using hpos.1
        rw [getNextResponse_fragmented_eval p q sid b i cnt rest m horder hlk]
        cases hall : (List.range cnt).all (fun index => is_slot_ready q index) with
        | false =>
          left
          simp [hall]
        | true =>
          cases htf : takeFragments cnt q with
          | none =>
            left
            simp [hall, htf]
          | some pr =>
            obtain ⟨frs, q1⟩ := pr
            obtain ⟨hle, hdrop, hslots⟩ := takeFragments_some_shape cnt q frs q1 htf
            rw [horder] at hle hdrop hslots
            cases hdm : p.defragment_messages frs with
            | ok mm =>
              refine Or.inr (Or.inl ⟨p.into_buf mm, q1, cnt, ?_, hcnt, hle, hdrop, hslots⟩)
              simp [hall, htf, hdm]
            | error e =>
              refine Or.inr (Or.inr ⟨q1, cnt, ?_, hcnt, hle, hdrop, hslots⟩)
              simp [hall, htf, hdm]

theorem removeIds_append {α : Type} (ids1 ids2 : List Nat) (s : Slab α) :
    removeIds (ids1 ++ ids2) s = removeIds ids2 (removeIds ids1 s) := by
  simp [removeIds, List.foldl_append]

theorem drainBufs_drains {M : Type} (p : Processor M) :
    ∀ (fuel : Nat) (q : MessageQueue M), fragPosB q = true →
      q.slot_order.length < fuel →
      ∀ (bufs : List Buf) (q' : MessageQueue M), drainBufs p fuel q = (bufs, q') →
      (∃ k, k ≤ q.slot_order.length
        ∧ q'.slot_order = q.slot_order.drop k
        ∧ q'.slots = removeIds ((q.slot_order.take k).map Prod.fst) q.slots
        ∧ bufs.length ≤ k)
      ∧ ∃ (qs : List (MessageQueue M)) (qlast : MessageQueue M),
          qs.length = bufs.length + 1
        ∧ qs.get? 0 = some q
        ∧ (∀ i, i < bufs.length → ∃ qi qi1 bi,
            qs.get? i = some qi ∧ qs.get? (i + 1) = some qi1 ∧ bufs.get? i = some bi
            ∧ getNextResponse p qi = (PollResp.ready bi, qi1))
        ∧ qs.get? bufs.length = some qlast
        ∧ ((getNextResponse p qlast = (PollResp.notReady, qlast) ∧ q' = qlast)
          ∨ ((getNextResponse p qlast).1 = PollResp.error
              ∧ (getNextResponse p qlast).2 = q')) := by
  intro fuel
  induction fuel with
  | zero =>
    intro q _ hlen
    exact absurd hlen (Nat.not_lt_zero _)
  | succ fuel ih =>
    intro q hpos hlen bufs q' hres
    rcases getNextResponse_step p q hpos with hstep |
        ⟨buf, q1, k, hstep, hk1, hkle, hdrop, hslots⟩ |
        ⟨q1, k, hstep, hk1, hkle, hdrop, hslots⟩
    · have hdb : drainBufs p (fuel + 1) q = ([], q) := by
        simp [drainBufs, hstep]
      rw [hdb, Prod.mk.injEq] at hres
      obtain ⟨hb, hq⟩ := hres
      subst hb
      subst hq
      refine ⟨⟨0, Nat.zero_le _, by simp, by simp [removeIds], by simp⟩,
        [q], q, rfl, rfl, ?_, rfl, Or.inl ⟨hstep, rfl⟩⟩
      intro i hi
      exact absurd hi (Nat.not_lt_zero i)
    · have hdb : drainBufs p (fuel + 1) q =
          (buf :: (drainBufs p fuel q1).1, (drainBufs p fuel q1).2) := by
        simp [drainBufs, hstep]
      rw [hdb, Prod.mk.injEq] at hres
      obtain ⟨hb, hq⟩ := hres
      have hpos1 : fragPosB q1 = true := fragPosB_drop q q1 k hpos hdrop
      have hq1len : q1.slot_order.length = q.slot_order.length - k := by
        rw [hdrop, List.length_drop]
      have hlen1 : q1.slot_order.length < fuel := by omega
      obtain ⟨⟨k', hk'le, hdrop', hslots', hblen'⟩,
          qs', qlast', hqslen, hqs0, hsteps, hqslast, hend⟩ :=
        ih q1 hpos1 hlen1 (drainBufs p fuel q1).1 (drainBufs p fuel q1).2 rfl
      subst hb
      subst hq
      constructor
      · refine ⟨k + k', by omega, ?_, ?_, ?_⟩
        · show (drainBufs p fuel q1).2.slot_order = List.drop (k + k') q.slot_order
          rw [hdrop', hdrop, List.drop_drop]
        · show (drainBufs p fuel q1).2.slots =
            removeIds (List.map Prod.fst (List.take (k + k') q.slot_order)) q.slots
          rw [hslots', hdrop, hslots, List.take_add, List.map_append, removeIds_append]
        · show ((buf :: (drainBufs p fuel q1).1).length) ≤ k + k'
          simp only [List.length_cons]
          omega
      · refine ⟨q :: qs', qlast', ?_, rfl, ?_, ?_, hend⟩
        · simp [hqslen]
        · intro i hi
          cases i with
          | zero =>
            exact ⟨q, q1, buf, rfl, hqs0, rfl, hstep⟩
          | succ j =>
            have hj : j < (drainBufs p fuel q1).1.length := by
              have h := hi
              simp only [List.length_cons] at h
              omega
            obtain ⟨qi, qi1, bi, h1, h2, h3, h4⟩ := hsteps j hj
            exact ⟨qi, qi1, bi, h1, h2, h3, h4⟩
        · show (q :: qs').get? ((buf :: (drainBufs p fuel q1).1).length) = some qlast'
          simp only [List.length_cons, List.get?_cons_succ]
          exact hqslast
    · have hdb : drainBufs p (fuel + 1) q = ([], q1) := by
        simp [drainBufs, hstep]
      rw [hdb, Prod.mk.injEq] at hres
      obtain ⟨hb, hq⟩ := hres
      subst hb
      subst hq
      refine ⟨⟨k, hkle, hdrop, hslots, by simp⟩,
        [q], q, rfl, rfl, ?_, rfl, Or.inr ⟨?_, ?_⟩⟩
      · intro i hi
        exact absurd hi (Nat.not_lt_zero i)
      · rw [hstep]
      · rw [hstep]

/-- C3: whenever `get_sendable_bufs` returns, its buffers are exactly the
responses of successive head polls, in order: there is a chain of queues
starting at the input along which `get_next_response` emits, step by step,
precisely the returned buffers — so emission is from the head in strict
enqueue (FIFO) order, with no reordering, duplication or loss — and the chain
ends when the next response is not ready (the stop of the claim) or when
defragmentation raises a processor error mid-group.  The consumed slots form
a prefix of the ordered queue: the remaining order is `drop k` of the
original and the prefix's slot ids are removed from the allocator, so no slot
can be emitted twice, and each emission consumed at least one slot
(`bufs.length ≤ k`).  Hypothesis: fragment counts are positive, the same
reachable-state invariant as C2 — it is also what makes the source's drain
loop terminate. -/
theorem mq_drain_fifo {M : Type} (p : Processor M) (q : MessageQueue M)
    (hpos : fragPosB q = true)
    (bufs : List Buf) (q' : MessageQueue M)
    (hdr : get_sendable_bufs p q = some (bufs, q')) :
    (∃ k, k ≤ q.slot_order.length
      ∧ q'.slot_order = q.slot_order.drop k
      ∧ q'.slots = removeIds ((q.slot_order.take k).map Prod.fst) q.slots
      ∧ bufs.length ≤ k)
    ∧ ∃ (qs : List (MessageQueue M)) (qlast : MessageQueue M),
        qs.length = bufs.length + 1
      ∧ qs.get? 0 = some q
      ∧ (∀ i, i < bufs.length → ∃ qi qi1 bi,
          qs.get? i = some qi ∧ qs.get? (i + 1) = some qi1 ∧ bufs.get? i = some bi
          ∧ getNextResponse p qi = (PollResp.ready bi, qi1))
      ∧ qs.get? bufs.length = some qlast
      ∧ ((getNextResponse p qlast = (PollResp.notReady, qlast) ∧ q' = qlast)
        ∨ ((getNextResponse p qlast).1 = PollResp.error
            ∧ (getNextResponse p qlast).2 = q')) := by
  unfold get_sendable_bufs at hdr
  cases h0 : is_slot_ready q 0 with
  | false => rw [h0] at hdr; simp at hdr
  | true =>
    rw [h0] at hdr
    have hdr' : drainBufs p (q.slot_order.length + 1) q = (bufs, q') := by
      simpa using hdr
    exact drainBufs_drains p (q.slot_order.length + 1) q hpos (Nat.lt_succ_self _) bufs q' hdr'

/-- Witness for `mq_drain_fifo`: draining `qEx3` under `pEx` emits exactly
`[7]` via one head poll and stops not-ready on the empty queue. -/
theorem mq_drain_fifo_witness :
    (∃ k, k ≤ qEx3.slot_order.length
      ∧ qEx3'.slot_order = qEx3.slot_order.drop k
      ∧ qEx3'.slots = removeIds ((qEx3.slot_order.take k).map Prod.fst) qEx3.slots
      ∧ [[7]].length ≤ k)
    ∧ ∃ (qs : List (MessageQueue Nat)) (qlast : MessageQueue Nat),
        qs.length = [[7]].length + 1
      ∧ qs.get? 0 = some qEx3
      ∧ (∀ i, i < [[7]].length → ∃ qi qi1 bi,
          qs.get? i = some qi ∧ qs.get? (i + 1) = some qi1 ∧ [[7]].get? i = some bi
          ∧ getNextResponse pEx qi = (PollResp.ready bi, qi1))
      ∧ qs.get? [[7]].length = some qlast
      ∧ ((getNextResponse pEx qlast = (PollResp.notReady, qlast) ∧ qEx3' = qlast)
        ∨ ((getNextResponse pEx qlast).1 = PollResp.error
            ∧ (getNextResponse pEx qlast).2 = qEx3')) :=
  mq_drain_fifo pEx qEx3 (by decide) [[7]] qEx3' (by decide)

end Amaranthine
